import Mathlib

/-!
Verification of the civic_bridge resolution engine.

The definitions below are a shallow embedding of the Python source:
`src/civic_lookup.py` (municipality resolver, the three tier mappers and
the lookup orchestrator of class `CivicLookup`) and `src/api_server.py`
(the autocomplete ranker `autocomplete_comuni`).  Reference tables that
the Python code loads from CSV files at startup are modelled as explicit
list parameters; the fixed EU constituency grouping is the literal
dictionary from `load_data`.  Python string operations are modelled on
`List Char`: `.strip()` removes leading and trailing whitespace,
`.upper()` maps `Char.toUpper` (ASCII, as in the source data), `in`
is substring containment and `.startswith` is list-prefix testing.
-/

namespace CivicBridge

/-- Python `str.strip()` from the left: drop leading whitespace. -/
def stripL (l : List Char) : List Char := l.dropWhile Char.isWhitespace

/-- Python `str.strip()`: drop leading and trailing whitespace. -/
def stripList (l : List Char) : List Char :=
  ((stripL ((stripL l).reverse)).reverse)

/-- Python `str.strip()` on strings. -/
def pyStrip (s : String) : String := ⟨stripList s.data⟩

/-- Python `str.upper()` on a list of characters (ASCII letters). -/
def upperList (l : List Char) : List Char := l.map Char.toUpper

/-- Python `str.upper()` on strings. -/
def pyUpper (s : String) : String := ⟨upperList s.data⟩

/-- Python `needle in hay` substring containment on lists of characters. -/
def containsList (hay needle : List Char) : Bool :=
  match hay with
  | [] => needle.isEmpty
  | _ :: t => needle.isPrefixOf hay || containsList t needle

/-- Python `needle in hay` substring containment on strings. -/
def pyContains (hay needle : String) : Bool := containsList hay.data needle.data

/-- Python `s.startswith(p)`. -/
def pyStartsWith (s p : String) : Bool := p.data.isPrefixOf s.data

/-- `clean_for_json` of `src/civic_lookup.py` on a string value:
`str(obj).strip()`. -/
def clean_for_json (s : String) : String := pyStrip s

/-- The region token of a district identifier: the upper-cased substring
before the first dash, as computed by splitting the upper-cased
identifier on the dash in `get_camera_representatives`. -/
def regionToken (collegio_id : String) : String :=
  ⟨(upperList collegio_id.data).takeWhile (fun c => c != '-')⟩

/-- A row of `comuni.csv`: the municipality table. -/
structure Municipality where
  istat_comune : String
  comune : String
  provincia : String
  regione : String
deriving DecidableEq, Repr

/-- A row of `collegi_camera.csv`: municipality code to lower-chamber district. -/
structure CollegioCamera where
  istat_comune : String
  collegio_camera_id : String
deriving DecidableEq, Repr

/-- A row of `contatti_camera.csv`: a lower-chamber member. -/
structure Deputato where
  nome : String
  cognome : String
  gruppo_partito : String
  collegio : String
  email_istituzionale : String
  form_contatti_url : String
deriving DecidableEq, Repr

/-- A row of `contatti_senato.csv`: an upper-chamber member. -/
structure Senatore where
  nome : String
  cognome : String
  gruppo_partito : String
  regione : String
  email_istituzionale : String
  sito_ufficiale : String
deriving DecidableEq, Repr

/-- A row of `contatti_eu.csv`: a European Parliament member. -/
structure Mep where
  nome : String
  cognome : String
  gruppo_partito : String
  circoscrizione_eu : String
  email_istituzionale : String
  form_contatti_url : String
deriving DecidableEq, Repr

/-- The dict returned per deputato by `get_camera_representatives`. -/
structure CameraEntry where
  tipo : String
  nome : String
  cognome : String
  gruppo_partito : String
  collegio : String
  email : String
  form_url : String
  istituzione : String
deriving DecidableEq, Repr

/-- The dict returned per senatore by `get_senato_representatives`. -/
structure SenatoEntry where
  tipo : String
  nome : String
  cognome : String
  gruppo_partito : String
  regione : String
  email : String
  sito_ufficiale : String
  istituzione : String
deriving DecidableEq, Repr

/-- The dict returned per MEP by `get_eu_representatives`. -/
structure MepEntry where
  tipo : String
  nome : String
  cognome : String
  gruppo_partito : String
  circoscrizione_eu : String
  email : String
  form_url : String
  istituzione : String
deriving DecidableEq, Repr

/-- The `summary` block of a successful `lookup_representatives` result. -/
structure Summary where
  total_representatives : Nat
  deputati_count : Nat
  senatori_count : Nat
  mep_count : Nat
deriving DecidableEq, Repr

/-- The result of `lookup_representatives`: either the failure dict
(`success: False` with an error message and no representatives) or the
success dict with the location and the three per-tier lists. -/
inductive LookupResult where
  | failure (error : String)
  | success (location : Municipality) (camera : List CameraEntry)
      (senato : List SenatoEntry) (eu_parliament : List MepEntry) (summary : Summary)
deriving DecidableEq, Repr

/-- The municipality dict built by `get_comune_info`: every field passes
through `clean_for_json`. -/
def cleanComune (row : Municipality) : Municipality :=
  { istat_comune := clean_for_json row.istat_comune
    comune := clean_for_json row.comune
    provincia := clean_for_json row.provincia
    regione := clean_for_json row.regione }

/-- `CivicLookup.get_comune_info`: two-phase municipality resolution.
The query is stripped and upper-cased (the `isdigit` CAP branch of the
source is a `pass` and has no effect); phase 1 keeps the rows whose
upper-cased name equals the query, phase 2 (only when phase 1 is empty)
keeps the rows whose upper-cased name contains the query; the first row
of the selected frame is returned through `clean_for_json`, and `None`
is returned when both phases are empty. -/
def get_comune_info (comuni : List Municipality) (search_term : String) :
    Option Municipality :=
  let st := pyUpper (pyStrip search_term)
  let exact_match := comuni.filter (fun r => pyUpper r.comune == st)
  let mtch :=
    if exact_match.isEmpty then
      comuni.filter (fun r => pyContains (pyUpper r.comune) st)
    else exact_match
  match mtch with
  | [] => none
  | row :: _ => some (cleanComune row)

/-- The dict appended per matching deputato by `get_camera_representatives`. -/
def mkCameraEntry (d : Deputato) : CameraEntry :=
  { tipo := "deputato"
    nome := clean_for_json d.nome
    cognome := clean_for_json d.cognome
    gruppo_partito := clean_for_json d.gruppo_partito
    collegio := clean_for_json d.collegio
    email := clean_for_json d.email_istituzionale
    form_url := clean_for_json d.form_contatti_url
    istituzione := "Camera dei Deputati" }

/-- `CivicLookup.get_camera_representatives`: find the district row for the
municipality code (empty list when absent), extract the region token of
the district identifier, and accumulate the deputati whose upper-cased
`collegio` label starts with that token. -/
def get_camera_representatives (collegi : List CollegioCamera)
    (deputati : List Deputato) (istat_comune : String) : List CameraEntry :=
  match collegi.filter (fun c => c.istat_comune == istat_comune) with
  | [] => []
  | c :: _ =>
    let region_part := regionToken c.collegio_camera_id
    deputati.foldl
      (fun acc d =>
        if pyStartsWith (pyUpper d.collegio) region_part then
          acc ++ [mkCameraEntry d]
        else acc)
      []

/-- The dict appended per matching senatore by `get_senato_representatives`. -/
def mkSenatoEntry (s : Senatore) : SenatoEntry :=
  { tipo := "senatore"
    nome := clean_for_json s.nome
    cognome := clean_for_json s.cognome
    gruppo_partito := clean_for_json s.gruppo_partito
    regione := clean_for_json s.regione
    email := clean_for_json s.email_istituzionale
    sito_ufficiale := clean_for_json s.sito_ufficiale
    istituzione := "Senato della Repubblica" }

/-- `CivicLookup.get_senato_representatives`: accumulate the senatori whose
cleaned `regione` field, upper-cased, equals the upper-cased input region. -/
def get_senato_representatives (senatori : List Senatore) (regione : String) :
    List SenatoEntry :=
  senatori.foldl
    (fun acc s =>
      if pyUpper (clean_for_json s.regione) == pyUpper regione then
        acc ++ [mkSenatoEntry s]
      else acc)
    []

/-- The fixed `_eu_constituencies` dictionary of `CivicLookup.load_data`,
in its insertion order. -/
def euConstituencies : List (String × List String) :=
  [("Nord-occidentale", ["Piemonte", "Valle d\x27Aosta", "Liguria", "Lombardia"]),
   ("Nord-orientale", ["Veneto", "Trentino-Alto Adige", "Friuli-Venezia Giulia",
      "Emilia-Romagna"]),
   ("Centrale", ["Toscana", "Umbria", "Marche", "Lazio"]),
   ("Meridionale", ["Abruzzo", "Molise", "Campania", "Puglia", "Basilicata",
      "Calabria"]),
   ("Insulare", ["Sicilia", "Sardegna"])]

/-- The dict appended per matching MEP by `get_eu_representatives`. -/
def mkMepEntry (m : Mep) : MepEntry :=
  { tipo := "deputato_europeo"
    nome := clean_for_json m.nome
    cognome := clean_for_json m.cognome
    gruppo_partito := clean_for_json m.gruppo_partito
    circoscrizione_eu := clean_for_json m.circoscrizione_eu
    email := clean_for_json m.email_istituzionale
    form_url := clean_for_json m.form_contatti_url
    istituzione := "Parlamento Europeo" }

/-- `CivicLookup.get_eu_representatives`: scan the fixed constituency
grouping for the first constituency whose region list contains the input
(Python `regione in regioni`, exact equality), return the empty list when
none is found, otherwise accumulate the MEPs whose cleaned
`circoscrizione_eu` field equals the constituency name. -/
def get_eu_representatives (mep_cache : List Mep) (regione : String) :
    List MepEntry :=
  match euConstituencies.find? (fun p => p.2.contains regione) with
  | none => []
  | some p =>
    mep_cache.foldl
      (fun acc m =>
        if clean_for_json m.circoscrizione_eu == p.1 then
          acc ++ [mkMepEntry m]
        else acc)
      []

/-- The reference tables held by a loaded `CivicLookup` instance. -/
structure LookupState where
  comuni : List Municipality
  collegi_camera : List CollegioCamera
  deputati : List Deputato
  senatori : List Senatore
  mep : List Mep
deriving Repr

/-- `CivicLookup.lookup_representatives`: resolve the municipality, and on
success fan out to the three tier mappers and assemble the summary from
the three list lengths; on resolution failure return the failure dict. -/
def lookup_representatives (st : LookupState) (search_term : String) :
    LookupResult :=
  match get_comune_info st.comuni search_term with
  | none => .failure ("Comune non trovato per: " ++ search_term)
  | some comune_info =>
    let deputati := get_camera_representatives st.collegi_camera st.deputati
      comune_info.istat_comune
    let senatori := get_senato_representatives st.senatori comune_info.regione
    let mep := get_eu_representatives st.mep comune_info.regione
    .success comune_info deputati senatori mep
      { total_representatives := deputati.length + senatori.length + mep.length
        deputati_count := deputati.length
        senatori_count := senatori.length
        mep_count := mep.length }

/-- An element of the `comuni_data` list built by `autocomplete_comuni`:
the stripped municipality name with cleaned province and region. -/
structure ComuneData where
  comune : String
  provincia : String
  regione : String
deriving DecidableEq, Repr

/-- A suggestion returned by `autocomplete_comuni` after the internal
`score` key has been deleted: only name, province, region and the
display string remain. -/
structure SuggestEntry where
  comune : String
  provincia : String
  regione : String
  display : String
deriving DecidableEq, Repr

/-- The JSON response of `/api/autocomplete`: the failure dict
(`success: False` with an error and no results) or the success dict with
the trimmed query, the result count and the suggestions. -/
inductive AutoResp where
  | failure (error : String)
  | ok (query : String) (count : Nat) (results : List SuggestEntry)
deriving DecidableEq, Repr

/-- The `comuni_data` pass of `autocomplete_comuni`: rows whose stripped
name is empty are skipped, the others keep the stripped name and the
cleaned province and region. -/
def comuniData (comuni : List Municipality) : List ComuneData :=
  comuni.foldl
    (fun acc row =>
      let comune_str := pyStrip row.comune
      if comune_str.data.isEmpty then acc
      else acc ++ [⟨comune_str, clean_for_json row.provincia,
        clean_for_json row.regione⟩])
    []

/-- The result item built by `autocomplete_comuni` for a matching row,
before the `score` key is deleted (the score is the first component). -/
def mkSuggest (cd : ComuneData) : SuggestEntry :=
  ⟨cd.comune, cd.provincia, cd.regione,
    cd.comune ++ " (" ++ cd.provincia ++ ") - " ++ cd.regione⟩

/-- One step of the search pass of `autocomplete_comuni`: score 1 for an
exact upper-cased match, 2 for a starts-with match, 3 for a contains
match, skipped otherwise. -/
def scoreStep (query_upper : String) (acc : List (Nat × SuggestEntry))
    (cd : ComuneData) : List (Nat × SuggestEntry) :=
  let comune_name := pyUpper cd.comune
  if query_upper == comune_name then acc ++ [(1, mkSuggest cd)]
  else if pyStartsWith comune_name query_upper then acc ++ [(2, mkSuggest cd)]
  else if pyContains comune_name query_upper then acc ++ [(3, mkSuggest cd)]
  else acc

/-- The search pass of `autocomplete_comuni` over all usable rows. -/
def scoredResults (comuni : List Municipality) (query_upper : String) :
    List (Nat × SuggestEntry) :=
  (comuniData comuni).foldl (scoreStep query_upper) []

/-- Stable insertion by ascending score: the new item goes before the
first element whose score is not smaller, which is how the stable
Python list sort by the score key orders equal keys. -/
def insertScored (x : Nat × SuggestEntry) :
    List (Nat × SuggestEntry) → List (Nat × SuggestEntry)
  | [] => [x]
  | y :: ys => if x.1 ≤ y.1 then x :: y :: ys else y :: insertScored x ys

/-- The results sort of `autocomplete_comuni`: a stable sort by score. -/
def sortScored (l : List (Nat × SuggestEntry)) : List (Nat × SuggestEntry) :=
  l.foldr insertScored []

/-- `autocomplete_comuni` of `src/api_server.py`: trim the query, reject
queries shorter than 2 characters, score every usable municipality row,
stable-sort ascending by score, truncate to `limit` and drop the score. -/
def autocomplete_comuni (comuni : List Municipality) (q : String)
    (limit : Nat) : AutoResp :=
  let query := pyStrip q
  if query.data.length < 2 then
    .failure "Query must be at least 2 characters"
  else
    let results := scoredResults comuni (pyUpper query)
    let final := ((sortScored results).take limit).map Prod.snd
    .ok query final.length final

/-- The relation that a scored autocomplete item bears to the upper-cased
query: its score records whether the upper-cased name equals, starts
with, or contains the query. -/
def scoreSpec (query_upper : String) (x : Nat × SuggestEntry) : Prop :=
  (x.1 = 1 ∧ pyUpper x.2.comune = query_upper) ∨
  (x.1 = 2 ∧ pyStartsWith (pyUpper x.2.comune) query_upper = true) ∨
  (x.1 = 3 ∧ pyContains (pyUpper x.2.comune) query_upper = true)

/-! ### Concrete tables used by scenarios, counterexamples and witnesses -/

/-- Two distinct municipalities whose names differ only in letter case. -/
def caseTable : List Municipality :=
  [⟨"001", "ROMA", "RM", "Lazio"⟩, ⟨"002", "Roma", "RM", "Lazio"⟩]

/-- The Milano row of the concrete scenarios. -/
def milanoRow : Municipality := ⟨"015146", "Milano", "MI", "Lombardia"⟩

/-- A one-row municipality table. -/
def milanoTable : List Municipality := [milanoRow]

/-- The Roma row of the concrete scenarios. -/
def romaRow : Municipality := ⟨"058091", "Roma", "RM", "Lazio"⟩

/-- The district row of the lower-chamber concrete scenario. -/
def demoCollegio : CollegioCamera := ⟨"058091", "LAZIO-P01"⟩

/-- A lower-chamber member with the free-text district label of the scenario. -/
def demoDeputato : Deputato :=
  ⟨"Anna", "Bianchi", "PartyA", "LAZIO 1 - P01", "a@b", "url"⟩

/-- An upper-chamber member for the Lazio region. -/
def demoSenatore : Senatore := ⟨"Luca", "Verdi", "PartyB", "Lazio", "l@v", "sito"⟩

/-- An EU member of the Centrale constituency. -/
def demoMep : Mep := ⟨"Elena", "Neri", "PartyC", "Centrale", "e@n", "url"⟩

/-- A loaded state with one row per table. -/
def demoState : LookupState :=
  ⟨[romaRow], [demoCollegio], [demoDeputato], [demoSenatore], [demoMep]⟩

/-- An autocomplete table listing a starts-with match and a contains match
before the exact match, in natural order. -/
def suggestTable : List Municipality :=
  [⟨"x1", "Romagnano", "NO", "Piemonte"⟩, ⟨"x2", "Croma", "XX", "Sicilia"⟩,
   ⟨"x3", "Roma", "RM", "Lazio"⟩]

/-- A one-row table whose name strictly contains the query of the
substring-fallback scenario. -/
def romanoTable : List Municipality :=
  [⟨"016183", "Romano di Lombardia", "BG", "Lombardia"⟩]

/-! ### Generic lemmas about the string primitives -/

theorem foldl_ite_append {α β : Type} (p : α → Bool) (f : α → β) :
    ∀ (l : List α) (acc : List β),
      l.foldl (fun a x => if p x then a ++ [f x] else a) acc =
        acc ++ (l.filter p).map f := by
  intro l
  induction l with
  | nil => intro acc; simp
  | cons x t ih =>
    intro acc
    by_cases h : p x = true
    · simp [List.filter_cons, h, ih, List.append_assoc]
    · simp only [Bool.not_eq_true] at h
      simp [List.filter_cons, h, ih]

theorem head?_filter {α : Type} (p : α → Bool) :
    ∀ l : List α, (l.filter p).head? = l.find? p := by
  intro l
  induction l with
  | nil => rfl
  | cons x t ih =>
    by_cases h : p x = true
    · simp [List.filter_cons, h, List.find?]
    · simp only [Bool.not_eq_true] at h
      simp [List.filter_cons, h, List.find?, ih]

theorem containsList_nil (l : List Char) : containsList l [] = true := by
  cases l with
  | nil => rfl
  | cons a t => simp [containsList, List.isPrefixOf]

theorem isPrefixOf_exists :
    ∀ (n l : List Char), n.isPrefixOf l = true ↔ ∃ t, l = n ++ t := by
  intro n
  induction n with
  | nil => intro l; simp [List.isPrefixOf]
  | cons c n ih =>
    intro l
    cases l with
    | nil => simp [List.isPrefixOf]
    | cons a t =>
      simp only [List.isPrefixOf, Bool.and_eq_true, beq_iff_eq, ih]
      constructor
      · rintro ⟨rfl, t0, rfl⟩
        exact ⟨t0, rfl⟩
      · rintro ⟨t0, h⟩
        injection h with h1 h2
        exact ⟨h1.symm, t0, h2⟩

theorem containsList_iff :
    ∀ (l n : List Char),
      containsList l n = true ↔ ∃ pre suf, l = pre ++ n ++ suf := by
  intro l
  induction l with
  | nil =>
    intro n
    simp only [containsList, List.isEmpty_iff]
    constructor
    · rintro rfl; exact ⟨[], [], rfl⟩
    · rintro ⟨pre, suf, h⟩
      rcases List.append_eq_nil.mp h.symm with ⟨h1, h2⟩
      rcases List.append_eq_nil.mp h1 with ⟨_, h3⟩
      exact h3
  | cons a t ih =>
    intro n
    simp only [containsList, Bool.or_eq_true, isPrefixOf_exists, ih]
    constructor
    · rintro (⟨t0, h⟩ | ⟨pre, suf, h⟩)
      · exact ⟨[], t0, by simpa using h⟩
      · exact ⟨a :: pre, suf, by simp [h]⟩
    · rintro ⟨pre, suf, h⟩
      cases pre with
      | nil => exact Or.inl ⟨suf, by simpa using h⟩
      | cons b pre' =>
        injection h with h1 h2
        exact Or.inr ⟨pre', suf, h2⟩

theorem containsList_reverse (l n : List Char)
    (h : containsList l n = true) : containsList l.reverse n.reverse = true := by
  rcases (containsList_iff l n).mp h with ⟨pre, suf, rfl⟩
  exact (containsList_iff _ _).mpr
    ⟨suf.reverse, pre.reverse, by simp [List.append_assoc]⟩

theorem length_stripL_le (l : List Char) : (stripL l).length ≤ l.length := by
  induction l with
  | nil => simp [stripL]
  | cons a t ih =>
    by_cases h : Char.isWhitespace a = true
    · simp only [stripL, List.dropWhile_cons, h, if_true] at *
      exact Nat.le_trans ih (Nat.le_succ _)
    · simp only [Bool.not_eq_true] at h
      simp [stripL, List.dropWhile_cons, h]

theorem stripL_stripL (l : List Char) : stripL (stripL l) = stripL l := by
  induction l with
  | nil => rfl
  | cons a t ih =>
    by_cases h : Char.isWhitespace a = true
    · simpa [stripL, List.dropWhile_cons, h] using ih
    · simp only [Bool.not_eq_true] at h
      simp [stripL, List.dropWhile_cons, h]

theorem stripL_head_false :
    ∀ {l c t}, stripL l = c :: t → Char.isWhitespace c = false := by
  intro l
  induction l with
  | nil => intro c t h; exact absurd h (by simp [stripL])
  | cons a t' ih =>
    intro c t h
    by_cases hw : Char.isWhitespace a = true
    · simp only [stripL, List.dropWhile_cons, hw, if_true] at h
      exact ih h
    · simp only [Bool.not_eq_true] at hw
      simp only [stripL, List.dropWhile_cons, hw, Bool.false_eq_true,
        if_false] at h
      injection h with h1 _
      rw [← h1]; exact hw

theorem stripL_suffix (l : List Char) : ∃ t, l = t ++ stripL l := by
  induction l with
  | nil => exact ⟨[], rfl⟩
  | cons a t ih =>
    by_cases h : Char.isWhitespace a = true
    · rcases ih with ⟨t0, h0⟩
      refine ⟨a :: t0, ?_⟩
      simp [stripL, List.dropWhile_cons, h]
      exact h0
    · simp only [Bool.not_eq_true] at h
      exact ⟨[], by simp [stripL, List.dropWhile_cons, h]⟩

theorem stripL_stripList (l : List Char) :
    stripL (stripList l) = stripList l := by
  unfold stripList
  cases hB : stripL (stripL l).reverse with
  | nil => simp [stripL]
  | cons c bt =>
    rcases stripL_suffix (stripL l).reverse with ⟨t0, ht0⟩
    rw [hB] at ht0
    have hrevA : stripL l = ((c :: bt) : List Char).reverse ++ t0.reverse := by
      have h := congrArg List.reverse ht0
      simpa [List.reverse_append] using h
    cases hr : ((c :: bt) : List Char).reverse with
    | nil => simp at hr
    | cons x xs =>
      rw [hr] at hrevA
      have hws : Char.isWhitespace x = false := stripL_head_false hrevA
      simp [stripL, List.dropWhile_cons, hws]

theorem stripL_reverse_stripList (l : List Char) :
    stripL ((stripList l).reverse) = (stripList l).reverse := by
  unfold stripList
  rw [List.reverse_reverse]
  exact stripL_stripL _

theorem contains_stripL {n : List Char} (hn : stripL n = n) :
    ∀ {l : List Char}, containsList l n = true → containsList (stripL l) n = true := by
  intro l
  induction l with
  | nil => intro h; simpa [stripL] using h
  | cons a t ih =>
    intro h
    simp only [containsList, Bool.or_eq_true] at h
    by_cases hw : Char.isWhitespace a = true
    · have hstep : stripL (a :: t) = stripL t := by
        simp [stripL, List.dropWhile_cons, hw]
      rw [hstep]
      rcases h with hp | hc
      · cases n with
        | nil => exact containsList_nil _
        | cons c n' =>
          rcases (isPrefixOf_exists _ _).mp hp with ⟨t0, ht0⟩
          injection ht0 with h1 h2
          rw [← h1] at hn
          simp only [stripL, List.dropWhile_cons, hw, if_true] at hn
          have hlen := length_stripL_le n'
          rw [show List.dropWhile Char.isWhitespace n' = stripL n' from rfl] at hn
          rw [hn] at hlen
          simp at hlen
      · exact ih hc
    · simp only [Bool.not_eq_true] at hw
      have hstep : stripL (a :: t) = a :: t := by
        simp [stripL, List.dropWhile_cons, hw]
      rw [hstep]
      simp only [containsList, Bool.or_eq_true]
      exact h

theorem contains_stripList {n : List Char}
    (hn1 : stripL n = n) (hn2 : stripL n.reverse = n.reverse)
    {l : List Char} (h : containsList l n = true) :
    containsList (stripList l) n = true := by
  have h1 := contains_stripL hn1 h
  have h2 := containsList_reverse _ _ h1
  have h3 := contains_stripL hn2 h2
  have h4 := containsList_reverse _ _ h3
  rw [List.reverse_reverse] at h4
  exact h4

theorem toNat_ofNat_valid {n : Nat} (h : n.isValidChar) :
    (Char.ofNat n).toNat = n := by
  rw [Char.ofNat, dif_pos h]
  simp [Char.ofNatAux, Char.toNat, UInt32.toNat]

theorem ne_of_toNat_ne {c d : Char} (h : c.toNat ≠ d.toNat) : c ≠ d :=
  fun he => h (by rw [he])

theorem isWhitespace_toUpper (c : Char) :
    (Char.toUpper c).isWhitespace = c.isWhitespace := by
  unfold Char.toUpper
  by_cases h : c.toNat ≥ 97 ∧ c.toNat ≤ 122
  · rw [if_pos h]
    have hv : (c.toNat - 32).isValidChar := Or.inl (by omega)
    have ht : (Char.ofNat (c.toNat - 32)).toNat = c.toNat - 32 :=
      toNat_ofNat_valid hv
    have hsp : (' ').toNat = 32 := rfl
    have htb : ('\t').toNat = 9 := rfl
    have hcr : ('\r').toNat = 13 := rfl
    have hnl : ('\n').toNat = 10 := rfl
    have h1 : (Char.ofNat (c.toNat - 32)).isWhitespace = false := by
      simp only [Char.isWhitespace, Bool.or_eq_false_iff,
        decide_eq_false_iff_not]
      refine ⟨⟨⟨?_, ?_⟩, ?_⟩, ?_⟩
      · exact ne_of_toNat_ne (by rw [ht, hsp]; omega)
      · exact ne_of_toNat_ne (by rw [ht, htb]; omega)
      · exact ne_of_toNat_ne (by rw [ht, hcr]; omega)
      · exact ne_of_toNat_ne (by rw [ht, hnl]; omega)
    have h2 : c.isWhitespace = false := by
      simp only [Char.isWhitespace, Bool.or_eq_false_iff,
        decide_eq_false_iff_not]
      refine ⟨⟨⟨?_, ?_⟩, ?_⟩, ?_⟩
      · exact ne_of_toNat_ne (by rw [hsp]; omega)
      · exact ne_of_toNat_ne (by rw [htb]; omega)
      · exact ne_of_toNat_ne (by rw [hcr]; omega)
      · exact ne_of_toNat_ne (by rw [hnl]; omega)
    rw [h1, h2]
  · rw [if_neg h]

theorem stripL_upperList (l : List Char) :
    stripL (upperList l) = upperList (stripL l) := by
  induction l with
  | nil => rfl
  | cons a t ih =>
    by_cases h : Char.isWhitespace a = true
    · have h2 : Char.isWhitespace (Char.toUpper a) = true := by
        rw [isWhitespace_toUpper]; exact h
      simpa [stripL, upperList, List.dropWhile_cons, h, h2] using ih
    · simp only [Bool.not_eq_true] at h
      have h2 : Char.isWhitespace (Char.toUpper a) = false := by
        rw [isWhitespace_toUpper]; exact h
      simp [stripL, upperList, List.dropWhile_cons, h, h2]

theorem reverse_upperList (l : List Char) :
    (upperList l).reverse = upperList l.reverse := by
  simp [upperList, List.map_reverse]

theorem stripList_upperList (l : List Char) :
    stripList (upperList l) = upperList (stripList l) := by
  unfold stripList
  rw [stripL_upperList, reverse_upperList, stripL_upperList,
    reverse_upperList]

/-! ### Lemmas about the stable score sort -/

theorem insertScored_skip (x : Nat × SuggestEntry) :
    ∀ (a b : List (Nat × SuggestEntry)), (∀ y ∈ a, y.1 < x.1) →
      insertScored x (a ++ b) = a ++ insertScored x b := by
  intro a
  induction a with
  | nil => intro b _; rfl
  | cons y t ih =>
    intro b h
    have hy : y.1 < x.1 := h y (by simp)
    have hnot : ¬ x.1 ≤ y.1 := by omega
    simp only [List.cons_append, insertScored, if_neg hnot]
    exact congrArg (fun z => y :: z) (ih b (fun z hz => h z (by simp [hz])))

theorem insertScored_front (x : Nat × SuggestEntry) :
    ∀ (b : List (Nat × SuggestEntry)), (∀ y ∈ b, x.1 ≤ y.1) →
      insertScored x b = x :: b := by
  intro b h
  cases b with
  | nil => rfl
  | cons y t =>
    have hy : x.1 ≤ y.1 := h y (by simp)
    simp [insertScored, if_pos hy]

theorem sortScored_eq_filters :
    ∀ (l : List (Nat × SuggestEntry)),
      (∀ x ∈ l, x.1 = 1 ∨ x.1 = 2 ∨ x.1 = 3) →
      sortScored l =
        l.filter (fun x => x.1 == 1) ++ l.filter (fun x => x.1 == 2) ++
          l.filter (fun x => x.1 == 3) := by
  intro l
  induction l with
  | nil => intro _; rfl
  | cons x t ih =>
    intro h
    have hx := h x (by simp)
    have ht : ∀ y ∈ t, y.1 = 1 ∨ y.1 = 2 ∨ y.1 = 3 :=
      fun y hy => h y (by simp [hy])
    have hstep : sortScored (x :: t) = insertScored x (sortScored t) := rfl
    rw [hstep, ih ht]
    have hf1 : ∀ y ∈ t.filter (fun z => z.1 == 1), y.1 = 1 := by
      intro y hy
      have := (List.mem_filter.mp hy).2
      exact beq_iff_eq.mp this
    have hf2 : ∀ y ∈ t.filter (fun z => z.1 == 2), y.1 = 2 := by
      intro y hy
      have := (List.mem_filter.mp hy).2
      exact beq_iff_eq.mp this
    have hf3 : ∀ y ∈ t.filter (fun z => z.1 == 3), y.1 = 3 := by
      intro y hy
      have := (List.mem_filter.mp hy).2
      exact beq_iff_eq.mp this
    have hval : ∀ y ∈ t.filter (fun z => z.1 == 1) ++ t.filter (fun z => z.1 == 2)
        ++ t.filter (fun z => z.1 == 3), y.1 = 1 ∨ y.1 = 2 ∨ y.1 = 3 := by
      intro y hy
      rcases List.mem_append.mp hy with hy' | hy'
      · rcases List.mem_append.mp hy' with hy'' | hy''
        · exact Or.inl (hf1 y hy'')
        · exact Or.inr (Or.inl (hf2 y hy''))
      · exact Or.inr (Or.inr (hf3 y hy'))
    rcases hx with hx1 | hx2 | hx3
    · rw [insertScored_front]
      · simp [List.filter_cons, hx1]
      · intro y hy
        have := hval y hy
        omega
    · rw [List.append_assoc, insertScored_skip, insertScored_front]
      · simp [List.filter_cons, hx2]
      · intro y hy
        rcases List.mem_append.mp hy with hy' | hy'
        · have := hf2 y hy'; omega
        · have := hf3 y hy'; omega
      · intro y hy
        have := hf1 y hy
        omega
    · rw [insertScored_skip, insertScored_front]
      · simp [List.filter_cons, hx3]
      · intro y hy
        have := hf3 y hy
        omega
      · intro y hy
        rcases List.mem_append.mp hy with hy' | hy'
        · have := hf1 y hy'; omega
        · have := hf2 y hy'; omega

/-! ### String-level wrappers -/

theorem pyStrip_eq_self {s : String} (h : stripList s.data = s.data) :
    pyStrip s = s :=
  congrArg String.mk h

theorem pyUpper_pyStrip (s : String) :
    pyUpper (pyStrip s) = pyStrip (pyUpper s) :=
  congrArg String.mk (stripList_upperList s.data).symm

theorem scoreStep_spec (qU : String) (acc : List (Nat × SuggestEntry))
    (cd : ComuneData) (h : ∀ x ∈ acc, scoreSpec qU x) :
    ∀ x ∈ scoreStep qU acc cd, scoreSpec qU x := by
  intro x hx
  by_cases h1 : (qU == pyUpper cd.comune) = true
  · simp only [scoreStep, h1, if_true] at hx
    rcases List.mem_append.mp hx with hx' | hx'
    · exact h x hx'
    · simp only [List.mem_singleton] at hx'
      subst hx'
      exact Or.inl ⟨rfl, (beq_iff_eq.mp h1).symm⟩
  · simp only [Bool.not_eq_true] at h1
    by_cases h2 : pyStartsWith (pyUpper cd.comune) qU = true
    · simp only [scoreStep, h1, Bool.false_eq_true, if_false, h2, if_true] at hx
      rcases List.mem_append.mp hx with hx' | hx'
      · exact h x hx'
      · simp only [List.mem_singleton] at hx'
        subst hx'
        exact Or.inr (Or.inl ⟨rfl, h2⟩)
    · simp only [Bool.not_eq_true] at h2
      by_cases h3 : pyContains (pyUpper cd.comune) qU = true
      · simp only [scoreStep, h1, Bool.false_eq_true, if_false, h2, h3,
          if_true] at hx
        rcases List.mem_append.mp hx with hx' | hx'
        · exact h x hx'
        · simp only [List.mem_singleton] at hx'
          subst hx'
          exact Or.inr (Or.inr ⟨rfl, h3⟩)
      · simp only [Bool.not_eq_true] at h3
        simp only [scoreStep, h1, Bool.false_eq_true, if_false, h2, h3] at hx
        exact h x hx

theorem scoredResults_spec (comuni : List Municipality) (qU : String) :
    ∀ x ∈ scoredResults comuni qU, scoreSpec qU x := by
  have hfold : ∀ (cds : List ComuneData) (acc : List (Nat × SuggestEntry)),
      (∀ x ∈ acc, scoreSpec qU x) →
      ∀ x ∈ cds.foldl (scoreStep qU) acc, scoreSpec qU x := by
    intro cds
    induction cds with
    | nil => intro acc h; simpa using h
    | cons cd t ih =>
      intro acc h
      exact ih _ (scoreStep_spec qU acc cd h)
  exact hfold _ [] (by simp)

/-- A string equals another exactly when their character lists do. -/
theorem string_eq_iff_data {s t : String} : s = t ↔ s.data = t.data :=
  ⟨fun h => congrArg String.data h, fun h => congrArg String.mk h⟩

/-! ### Claim C1 -/

/-- C1, counterexample: in a table holding the distinct rows `ROMA` (first)
and `Roma` (second), `resolve("Roma")` returns the first exact-phase row,
whose `name` is `ROMA` and thus does not equal the queried name `Roma`;
so `resolve(m.name)` does not always return a municipality whose name
equals `m.name`. -/
theorem C1_counterexample :
    (⟨"002", "Roma", "RM", "Lazio"⟩ : Municipality) ∈ caseTable ∧
    get_comune_info caseTable "Roma" = some ⟨"001", "ROMA", "RM", "Lazio"⟩ ∧
    ("ROMA" : String) ≠ "Roma" := by
  refine ⟨by decide, by decide, by decide⟩

/-- C1, amended: for every municipality `m` of the table whose stored name
carries no leading or trailing whitespace, the exact-match phase finds `m`
and preempts the fallback: `resolve(m.name)` returns the first table row
whose upper-cased name equals the upper-cased query, with fields trimmed
for output, and the returned name equals `m.name` up to letter case
(byte-for-byte equality can fail when an earlier row shares the name with
different case, as the counterexample shows). -/
theorem C1_theorem (comuni : List Municipality) (m : Municipality)
    (hm : m ∈ comuni) (htrim : stripList m.comune.data = m.comune.data) :
    ∃ row, comuni.find? (fun r => pyUpper r.comune == pyUpper m.comune) = some row ∧
      get_comune_info comuni m.comune = some (cleanComune row) ∧
      pyUpper (cleanComune row).comune = pyUpper m.comune := by
  have hq : pyStrip m.comune = m.comune := pyStrip_eq_self htrim
  have hpred : (pyUpper m.comune == pyUpper (pyStrip m.comune)) = true := by
    rw [hq]
    exact beq_self_eq_true _
  have hmem : m ∈ comuni.filter
      (fun r => pyUpper r.comune == pyUpper (pyStrip m.comune)) :=
    List.mem_filter.mpr ⟨hm, hpred⟩
  obtain ⟨row, rest, hF⟩ : ∃ row rest, comuni.filter
      (fun r => pyUpper r.comune == pyUpper (pyStrip m.comune)) = row :: rest := by
    cases hF0 : comuni.filter
        (fun r => pyUpper r.comune == pyUpper (pyStrip m.comune)) with
    | nil => rw [hF0] at hmem; simp at hmem
    | cons a b => exact ⟨a, b, rfl⟩
  have hfindS : comuni.find?
      (fun r => pyUpper r.comune == pyUpper (pyStrip m.comune)) = some row := by
    have h := head?_filter
      (fun r => pyUpper r.comune == pyUpper (pyStrip m.comune)) comuni
    rw [hF] at h
    exact h.symm
  have hrow : row ∈ comuni.filter
      (fun r => pyUpper r.comune == pyUpper (pyStrip m.comune)) := by
    rw [hF]; exact List.mem_cons_self _ _
  have hroweq : pyUpper row.comune = pyUpper m.comune := by
    have h := beq_iff_eq.mp (List.mem_filter.mp hrow).2
    rwa [hq] at h
  refine ⟨row, ?_, ?_, ?_⟩
  · rw [← hq]
    exact hfindS
  · have hne : (comuni.filter
        (fun r => pyUpper r.comune == pyUpper (pyStrip m.comune))).isEmpty = false := by
      rw [hF]; rfl
    simp only [get_comune_info, hne, Bool.false_eq_true, if_false]
    rw [hF]
  · show pyUpper (pyStrip row.comune) = pyUpper m.comune
    rw [pyUpper_pyStrip, hroweq, ← pyUpper_pyStrip, hq]

/-- C1, witness: the amended theorem applied to the one-row Milano table. -/
theorem C1_witness :
    ∃ row, milanoTable.find?
        (fun r => pyUpper r.comune == pyUpper milanoRow.comune) = some row ∧
      get_comune_info milanoTable milanoRow.comune = some (cleanComune row) ∧
      pyUpper (cleanComune row).comune = pyUpper milanoRow.comune :=
  C1_theorem milanoTable milanoRow (by decide) (by decide)

/-! ### Claim C2 -/

/-- C2, counterexample: on a non-empty table, `resolve("")` is not
`NotFound`: the substring fallback matches every name against the empty
query and the first table row is returned. -/
theorem C2_counterexample :
    get_comune_info milanoTable "" = some (cleanComune milanoRow) ∧
    get_comune_info milanoTable "" ≠ none := by
  refine ⟨by decide, by decide⟩

/-- C2, amended: a query that trims to the empty string matches no
non-empty name in the exact phase, but substring-matches every name in
the fallback, so `resolve` returns the first table row (cleaned) and
yields `NotFound` only when the table is empty. -/
theorem C2_theorem (comuni : List Municipality) (q : String)
    (hq : stripList q.data = [])
    (hnames : ∀ m ∈ comuni, m.comune.data ≠ []) :
    get_comune_info comuni q = comuni.head?.map cleanComune := by
  have hst : pyUpper (pyStrip q) = ⟨[]⟩ :=
    congrArg String.mk (by rw [show (pyStrip q).data = stripList q.data from rfl, hq]; rfl)
  have hex : comuni.filter (fun r => pyUpper r.comune == pyUpper (pyStrip q)) = [] := by
    rw [List.filter_eq_nil_iff]
    intro r hr
    rw [hst]
    intro hcon
    have h := string_eq_iff_data.mp (beq_iff_eq.mp hcon)
    have h2 : r.comune.data = [] := List.map_eq_nil_iff.mp h
    exact hnames r hr h2
  have hfall : comuni.filter
      (fun r => pyContains (pyUpper r.comune) (pyUpper (pyStrip q))) = comuni := by
    rw [List.filter_eq_self]
    intro r _
    rw [hst]
    exact containsList_nil _
  simp only [get_comune_info, hex, hfall, List.isEmpty_nil, if_true]
  cases comuni with
  | nil => rfl
  | cons a t => rfl

/-- C2, witness: the amended theorem applied to a whitespace query over
the one-row Milano table. -/
theorem C2_witness :
    get_comune_info milanoTable " " = milanoTable.head?.map cleanComune :=
  C2_theorem milanoTable " " (by decide) (by decide)

/-- The deputati accumulation loop collects exactly the filtered rows,
mapped to their result dicts, in order. -/
theorem cameraFold_eq (region_part : String) (deps : List Deputato)
    (acc : List CameraEntry) :
    deps.foldl
      (fun acc d =>
        if pyStartsWith (pyUpper d.collegio) region_part then
          acc ++ [mkCameraEntry d]
        else acc)
      acc =
    acc ++ (deps.filter
      (fun d => pyStartsWith (pyUpper d.collegio) region_part)).map mkCameraEntry :=
  foldl_ite_append _ _ deps acc

/-- The senatori accumulation loop collects exactly the filtered rows,
mapped to their result dicts, in order. -/
theorem senatoFold_eq (regione : String) (senatori : List Senatore)
    (acc : List SenatoEntry) :
    senatori.foldl
      (fun acc s =>
        if pyUpper (clean_for_json s.regione) == pyUpper regione then
          acc ++ [mkSenatoEntry s]
        else acc)
      acc =
    acc ++ (senatori.filter
      (fun s => pyUpper (clean_for_json s.regione) == pyUpper regione)).map
        mkSenatoEntry :=
  foldl_ite_append _ _ senatori acc

/-- The MEP accumulation loop collects exactly the filtered rows, mapped
to their result dicts, in order. -/
theorem euFold_eq (circ : String) (meps : List Mep) (acc : List MepEntry) :
    meps.foldl
      (fun acc m =>
        if clean_for_json m.circoscrizione_eu == circ then
          acc ++ [mkMepEntry m]
        else acc)
      acc =
    acc ++ (meps.filter
      (fun m => clean_for_json m.circoscrizione_eu == circ)).map mkMepEntry :=
  foldl_ite_append _ _ meps acc

/-! ### Claim C3 -/

/-- C3: `lowerChamberReps` returns the empty list when no district row
carries the municipality code, and otherwise returns exactly the
lower-chamber members whose upper-cased free-text district label starts
with the region token of the first matching district row (the upper-cased
identifier up to the first dash); in particular the scenario member with
label `LAZIO 1 - P01` is returned for district `LAZIO-P01`. -/
theorem C3_theorem (collegi : List CollegioCamera) (deps : List Deputato)
    (istat : String) :
    get_camera_representatives collegi deps istat =
      (match collegi.find? (fun c => c.istat_comune == istat) with
       | none => []
       | some c =>
         (deps.filter (fun d =>
           pyStartsWith (pyUpper d.collegio)
             (regionToken c.collegio_camera_id))).map mkCameraEntry) ∧
    mkCameraEntry demoDeputato ∈
      get_camera_representatives [demoCollegio] [demoDeputato] "058091" := by
  constructor
  · cases hf : collegi.find? (fun c => c.istat_comune == istat) with
    | none =>
      have hfil : collegi.filter (fun c => c.istat_comune == istat) = [] := by
        rw [List.filter_eq_nil_iff]
        exact List.find?_eq_none.mp hf
      simp only [get_camera_representatives, hfil]
    | some c =>
      have hh := head?_filter (fun c => c.istat_comune == istat) collegi
      rw [hf] at hh
      obtain ⟨rest, hfil⟩ : ∃ rest,
          collegi.filter (fun c => c.istat_comune == istat) = c :: rest := by
        cases hF0 : collegi.filter (fun c => c.istat_comune == istat) with
        | nil => rw [hF0] at hh; simp at hh
        | cons a b =>
          rw [hF0] at hh
          simp only [List.head?_cons, Option.some.injEq] at hh
          exact ⟨b, by rw [hh]⟩
      simp only [get_camera_representatives, hfil]
      rw [cameraFold_eq, List.nil_append]
  · decide

/-! ### Claim C4 -/

/-- C4: every successful `lookup` result carries a summary whose total is
the sum of the three per-tier list lengths and whose per-tier counts are
those list lengths; and `lookup` returns the failure variant exactly when
the municipality resolver returns `NotFound`. -/
theorem C4_theorem (st : LookupState) (q : String) :
    (∀ loc cam sen eu summ,
      lookup_representatives st q = .success loc cam sen eu summ →
        summ.total_representatives = cam.length + sen.length + eu.length ∧
        summ.deputati_count = cam.length ∧
        summ.senatori_count = sen.length ∧
        summ.mep_count = eu.length) ∧
    ((∃ e, lookup_representatives st q = .failure e) ↔
      get_comune_info st.comuni q = none) := by
  constructor
  · intro loc cam sen eu summ h
    cases hg : get_comune_info st.comuni q with
    | none =>
      rw [lookup_representatives, hg] at h
      exact absurd h (by simp)
    | some info =>
      rw [lookup_representatives, hg] at h
      injection h with h1 h2 h3 h4 h5
      subst h2
      subst h3
      subst h4
      subst h5
      exact ⟨rfl, rfl, rfl, rfl⟩
  · constructor
    · rintro ⟨e, he⟩
      cases hg : get_comune_info st.comuni q with
      | none => rfl
      | some info =>
        rw [lookup_representatives, hg] at he
        exact absurd he (by simp)
    · intro hg
      exact ⟨_, by rw [lookup_representatives, hg]⟩

/-- C4, witness: the counts part applied to the one-row demo state, whose
lookup of Roma succeeds with one representative per tier. -/
theorem C4_witness :
    (Summary.mk 3 1 1 1).total_representatives =
        [mkCameraEntry demoDeputato].length + [mkSenatoEntry demoSenatore].length +
          [mkMepEntry demoMep].length ∧
      (Summary.mk 3 1 1 1).deputati_count = [mkCameraEntry demoDeputato].length ∧
      (Summary.mk 3 1 1 1).senatori_count = [mkSenatoEntry demoSenatore].length ∧
      (Summary.mk 3 1 1 1).mep_count = [mkMepEntry demoMep].length :=
  (C4_theorem demoState "Roma").1 (cleanComune romaRow) [mkCameraEntry demoDeputato]
    [mkSenatoEntry demoSenatore] [mkMepEntry demoMep] ⟨3, 1, 1, 1⟩ rfl

/-! ### Claim C5 -/

/-- C5: for a query of at least 2 characters after trimming, `suggest`
succeeds and its result list is the stable score sort — the score-1 block,
then the score-2 block, then the score-3 block, each in table order —
truncated to `limit` and stripped of the score component; at most `limit`
entries are returned and every entry relates to the query by equals,
starts-with or contains (case-insensitively); and on the concrete table
the exact match `Roma` for query `ROMA` is ranked strictly before
`Romagnano` and `Croma` despite coming after them in table order. -/
theorem C5_theorem (comuni : List Municipality) (q : String) (limit : Nat)
    (h2 : 2 ≤ (pyStrip q).data.length) :
    (∃ res, autocomplete_comuni comuni q limit = .ok (pyStrip q) res.length res ∧
      res = (((scoredResults comuni (pyUpper (pyStrip q))).filter (fun x => x.1 == 1) ++
        (scoredResults comuni (pyUpper (pyStrip q))).filter (fun x => x.1 == 2) ++
        (scoredResults comuni (pyUpper (pyStrip q))).filter (fun x => x.1 == 3)).take
          limit).map Prod.snd ∧
      res.length ≤ limit ∧
      (∀ e ∈ res, pyUpper e.comune = pyUpper (pyStrip q) ∨
        pyStartsWith (pyUpper e.comune) (pyUpper (pyStrip q)) = true ∨
        pyContains (pyUpper e.comune) (pyUpper (pyStrip q)) = true)) ∧
    autocomplete_comuni suggestTable "ROMA" 10 =
      .ok "ROMA" 3 [⟨"Roma", "RM", "Lazio", "Roma (RM) - Lazio"⟩,
        ⟨"Romagnano", "NO", "Piemonte", "Romagnano (NO) - Piemonte"⟩,
        ⟨"Croma", "XX", "Sicilia", "Croma (XX) - Sicilia"⟩] := by
  have hnot : ¬ ((pyStrip q).data.length < 2) := by omega
  have hscores : ∀ x ∈ scoredResults comuni (pyUpper (pyStrip q)),
      x.1 = 1 ∨ x.1 = 2 ∨ x.1 = 3 := by
    intro x hx
    rcases scoredResults_spec comuni (pyUpper (pyStrip q)) x hx with
      ⟨h, _⟩ | ⟨h, _⟩ | ⟨h, _⟩
    · exact Or.inl h
    · exact Or.inr (Or.inl h)
    · exact Or.inr (Or.inr h)
  have hsorted := sortScored_eq_filters _ hscores
  constructor
  · refine ⟨((sortScored (scoredResults comuni (pyUpper (pyStrip q)))).take
      limit).map Prod.snd, ?_, ?_, ?_, ?_⟩
    · simp only [autocomplete_comuni]
      rw [if_neg hnot]
    · rw [hsorted]
    · simp only [List.length_map, List.length_take]
      exact Nat.min_le_left _ _
    · intro e he
      rcases List.mem_map.mp he with ⟨x, hx, rfl⟩
      have hx2 : x ∈ sortScored (scoredResults comuni (pyUpper (pyStrip q))) :=
        List.take_subset _ _ hx
      rw [hsorted] at hx2
      have hx3 : x ∈ scoredResults comuni (pyUpper (pyStrip q)) := by
        rcases List.mem_append.mp hx2 with h' | h'
        · rcases List.mem_append.mp h' with h'' | h''
          · exact (List.mem_filter.mp h'').1
          · exact (List.mem_filter.mp h'').1
        · exact (List.mem_filter.mp h').1
      rcases scoredResults_spec comuni (pyUpper (pyStrip q)) x hx3 with
        ⟨_, h⟩ | ⟨_, h⟩ | ⟨_, h⟩
      · exact Or.inl h
      · exact Or.inr (Or.inl h)
      · exact Or.inr (Or.inr h)
  · decide

/-- C5, witness: the main part of C5 at the concrete suggestion table. -/
theorem C5_witness :
    (∃ res, autocomplete_comuni suggestTable "ROMA" 10 =
        .ok (pyStrip "ROMA") res.length res ∧
      res = (((scoredResults suggestTable (pyUpper (pyStrip "ROMA"))).filter
          (fun x => x.1 == 1) ++
        (scoredResults suggestTable (pyUpper (pyStrip "ROMA"))).filter
          (fun x => x.1 == 2) ++
        (scoredResults suggestTable (pyUpper (pyStrip "ROMA"))).filter
          (fun x => x.1 == 3)).take 10).map Prod.snd ∧
      res.length ≤ 10 ∧
      (∀ e ∈ res, pyUpper e.comune = pyUpper (pyStrip "ROMA") ∨
        pyStartsWith (pyUpper e.comune) (pyUpper (pyStrip "ROMA")) = true ∨
        pyContains (pyUpper e.comune) (pyUpper (pyStrip "ROMA")) = true)) ∧
    autocomplete_comuni suggestTable "ROMA" 10 =
      .ok "ROMA" 3 [⟨"Roma", "RM", "Lazio", "Roma (RM) - Lazio"⟩,
        ⟨"Romagnano", "NO", "Piemonte", "Romagnano (NO) - Piemonte"⟩,
        ⟨"Croma", "XX", "Sicilia", "Croma (XX) - Sicilia"⟩] :=
  C5_theorem suggestTable "ROMA" 10 (by decide)

/-! ### Claim C6 -/

/-- When no constituency of the fixed grouping lists the region, the EU
mapper finds no constituency and returns the empty list. -/
theorem eu_reps_no_constituency (meps : List Mep) (regione : String)
    (h : ∀ p ∈ euConstituencies, regione ∉ p.2) :
    get_eu_representatives meps regione = [] := by
  have hf : euConstituencies.find? (fun p => p.2.contains regione) = none := by
    rw [List.find?_eq_none]
    intro p hp hc
    exact h p hp (List.elem_iff.mp hc)
  rw [get_eu_representatives, hf]

/-- C6: `euReps` returns the empty list (not an error) for a region
listed in no constituency of the fixed five-entry grouping; for every
region whose constituency lookup succeeds, it returns exactly the members
whose cleaned constituency field equals the resolved constituency name;
and in particular for `Lazio` (a region of the `Centrale` constituency)
it returns exactly the members whose cleaned constituency field equals
`Centrale`. -/
theorem C6_theorem :
    (∀ (meps : List Mep) (regione : String),
      (∀ p ∈ euConstituencies, regione ∉ p.2) →
      get_eu_representatives meps regione = []) ∧
    (∀ (meps : List Mep) (regione : String) (p : String × List String),
      euConstituencies.find? (fun p => p.2.contains regione) = some p →
      get_eu_representatives meps regione =
        (meps.filter (fun m => clean_for_json m.circoscrizione_eu == p.1)).map
          mkMepEntry) ∧
    (∀ meps : List Mep,
      get_eu_representatives meps "Lazio" =
        (meps.filter (fun m => clean_for_json m.circoscrizione_eu == "Centrale")).map
          mkMepEntry) := by
  have hfound : ∀ (meps : List Mep) (regione : String) (p : String × List String),
      euConstituencies.find? (fun p => p.2.contains regione) = some p →
      get_eu_representatives meps regione =
        (meps.filter (fun m => clean_for_json m.circoscrizione_eu == p.1)).map
          mkMepEntry := by
    intro meps regione p hf
    rw [get_eu_representatives, hf]
    have h := euFold_eq p.1 meps []
    rw [List.nil_append] at h
    exact h
  refine ⟨eu_reps_no_constituency, hfound, ?_⟩
  intro meps
  exact hfound meps "Lazio" ("Centrale", ["Toscana", "Umbria", "Marche", "Lazio"])
    (by decide)

/-- C6, witness: a region name absent from the grouping yields the empty
list, and a region resolved to its constituency yields exactly the
matching members. -/
theorem C6_witness :
    get_eu_representatives [demoMep] "Pandora" = [] ∧
    get_eu_representatives [demoMep] "Lazio" =
      ([demoMep].filter
        (fun m => clean_for_json m.circoscrizione_eu == "Centrale")).map
          mkMepEntry :=
  ⟨C6_theorem.1 [demoMep] "Pandora" (by decide),
   C6_theorem.2.1 [demoMep] "Lazio"
     ("Centrale", ["Toscana", "Umbria", "Marche", "Lazio"]) (by decide)⟩

/-! ### Claim C7 -/

/-- C7: when the trimmed upper-cased query is an exact match of no
municipality name but a substring of at least one, `resolve` returns some
municipality whose upper-cased name contains the query, never `NotFound`
(the returned name is trimmed for output, and trimming preserves the
containment because the trimmed query starts and ends with
non-whitespace). -/
theorem C7_theorem (comuni : List Municipality) (q : String)
    (hnex : ∀ m ∈ comuni, pyUpper m.comune ≠ pyUpper (pyStrip q))
    (hsub : ∃ m ∈ comuni, pyContains (pyUpper m.comune) (pyUpper (pyStrip q)) = true) :
    ∃ r, get_comune_info comuni q = some r ∧
      pyContains (pyUpper r.comune) (pyUpper (pyStrip q)) = true := by
  have hex : comuni.filter (fun r => pyUpper r.comune == pyUpper (pyStrip q)) = [] := by
    rw [List.filter_eq_nil_iff]
    intro r hr hc
    exact hnex r hr (beq_iff_eq.mp hc)
  obtain ⟨m0, hm0, hc0⟩ := hsub
  have hmem : m0 ∈ comuni.filter
      (fun r => pyContains (pyUpper r.comune) (pyUpper (pyStrip q))) :=
    List.mem_filter.mpr ⟨hm0, hc0⟩
  obtain ⟨row, rest, hF⟩ : ∃ row rest, comuni.filter
      (fun r => pyContains (pyUpper r.comune) (pyUpper (pyStrip q))) = row :: rest := by
    cases hF0 : comuni.filter
        (fun r => pyContains (pyUpper r.comune) (pyUpper (pyStrip q))) with
    | nil => rw [hF0] at hmem; simp at hmem
    | cons a b => exact ⟨a, b, rfl⟩
  have hrow : row ∈ comuni.filter
      (fun r => pyContains (pyUpper r.comune) (pyUpper (pyStrip q))) := by
    rw [hF]; exact List.mem_cons_self _ _
  have hrowc : pyContains (pyUpper row.comune) (pyUpper (pyStrip q)) = true :=
    (List.mem_filter.mp hrow).2
  refine ⟨cleanComune row, ?_, ?_⟩
  · simp only [get_comune_info, hex, List.isEmpty_nil, if_true]
    rw [hF]
  · show containsList (upperList (stripList row.comune.data))
      (upperList (stripList q.data)) = true
    have hn1 : stripL (upperList (stripList q.data)) = upperList (stripList q.data) := by
      rw [stripL_upperList, stripL_stripList]
    have hn2 : stripL (upperList (stripList q.data)).reverse =
        (upperList (stripList q.data)).reverse := by
      rw [reverse_upperList, stripL_upperList, stripL_reverse_stripList]
    have h := contains_stripList hn1 hn2
      (l := upperList row.comune.data) hrowc
    rwa [stripList_upperList] at h

/-- C7, witness: the fallback theorem applied to the query `oma` over a
table whose single name `Romano di Lombardia` strictly contains it. -/
theorem C7_witness :
    ∃ r, get_comune_info romanoTable "oma" = some r ∧
      pyContains (pyUpper r.comune) (pyUpper (pyStrip "oma")) = true :=
  C7_theorem romanoTable "oma" (by decide) (by decide)

/-! ### Claim C8 -/

/-- C8: `upperChamberReps` returns exactly the upper-chamber members whose
cleaned region field equals the input region case-insensitively, each
mapped to its result dict in table order; membership in the result is
equivalent to arising from such a member, so a member whose region merely
starts with or contains the input without being case-insensitively equal
is never returned, and zero matches yield the empty list. -/
theorem C8_theorem (senatori : List Senatore) (regione : String) :
    get_senato_representatives senatori regione =
      (senatori.filter
        (fun s => pyUpper (clean_for_json s.regione) == pyUpper regione)).map
          mkSenatoEntry ∧
    ∀ e, e ∈ get_senato_representatives senatori regione ↔
      ∃ s, s ∈ senatori ∧ pyUpper (clean_for_json s.regione) = pyUpper regione ∧
        e = mkSenatoEntry s := by
  have heq : get_senato_representatives senatori regione =
      (senatori.filter
        (fun s => pyUpper (clean_for_json s.regione) == pyUpper regione)).map
          mkSenatoEntry := by
    rw [get_senato_representatives, senatoFold_eq, List.nil_append]
  refine ⟨heq, ?_⟩
  intro e
  rw [heq]
  constructor
  · intro he
    rcases List.mem_map.mp he with ⟨s, hs, rfl⟩
    have h := List.mem_filter.mp hs
    exact ⟨s, h.1, beq_iff_eq.mp h.2, rfl⟩
  · rintro ⟨s, hs, hr, rfl⟩
    exact List.mem_map.mpr ⟨s, List.mem_filter.mpr ⟨hs, beq_iff_eq.mpr hr⟩, rfl⟩

/-! ### Claim C9 -/

/-- C9: a query shorter than 2 characters after trimming (including the
empty query) makes `suggest` signal the too-short failure with no
suggestion entries, for every limit. -/
theorem C9_theorem (comuni : List Municipality) (q : String) (limit : Nat)
    (h : (pyStrip q).data.length < 2) :
    autocomplete_comuni comuni q limit =
      .failure "Query must be at least 2 characters" := by
  simp only [autocomplete_comuni]
  rw [if_pos h]

/-- C9, witness: a one-character query is rejected. -/
theorem C9_witness :
    autocomplete_comuni milanoTable "R" 5 =
      .failure "Query must be at least 2 characters" :=
  C9_theorem milanoTable "R" 5 (by decide)

/-! ### Claim C10 -/

/-- C10: the constituency lookup of `euReps` matches region names by
exact case-sensitive membership, with no trimming or case folding, so an
input that differs from a listed region name only in letter case is found
in no constituency and yields the empty list — while the upper-chamber
mapper joins case-insensitively and still returns a senator whose region
equals the same input up to case. -/
theorem C10_theorem (meps : List Mep) (r : String)
    (_hcase : ∃ p, p ∈ euConstituencies ∧ ∃ x, x ∈ p.2 ∧
      pyUpper x = pyUpper r ∧ x ≠ r)
    (hnot : ∀ p ∈ euConstituencies, r ∉ p.2) :
    get_eu_representatives meps r = [] ∧
    ∀ s : Senatore, pyUpper (clean_for_json s.regione) = pyUpper r →
      get_senato_representatives [s] r = [mkSenatoEntry s] := by
  refine ⟨eu_reps_no_constituency meps r hnot, ?_⟩
  intro s hs
  have hb : (pyUpper (clean_for_json s.regione) == pyUpper r) = true :=
    beq_iff_eq.mpr hs
  rw [get_senato_representatives]
  simp [List.foldl, hb]

/-- C10, witness: `LAZIO` differs from the listed `Lazio` only in case;
the EU mapper returns nothing for it while the upper-chamber mapper still
returns the Lazio senator. -/
theorem C10_witness :
    get_eu_representatives [demoMep] "LAZIO" = [] ∧
    get_senato_representatives [demoSenatore] "LAZIO" =
      [mkSenatoEntry demoSenatore] := by
  have h := C10_theorem [demoMep] "LAZIO"
    ⟨("Centrale", ["Toscana", "Umbria", "Marche", "Lazio"]), by decide,
      "Lazio", by decide, by decide, by decide⟩ (by decide)
  exact ⟨h.1, h.2 demoSenatore (by decide)⟩

end CivicBridge
